import Mathlib

/-!
Verification of `packages/cache/src/internal/cacheHttpClient.ts`.

A shallow embedding of the cache HTTP client of `actions-toolkit-s3`:
cache-entry lookup against an S3-compatible object store (paginated
listing, primary/fallback key resolution), Rest-backend lookup, cache
reservation, chunked upload planning and the save/commit orchestration.

Conventions of the embedding:
* TypeScript `undefined`-able fields become `Option`; JavaScript object
  truthiness becomes `Option.isSome`, string truthiness becomes
  "`some` of a non-empty string".
* `Date` values are modelled by their timestamp as a `Nat`
  (`Date.prototype.getTime`); `Date.prototype.toString` is elided, the
  entry's `creationTime` carries the timestamp itself.
* The paginated S3 listing is modelled as the list of responses the
  bucket would serve: page `i+1` is the page reached by the
  continuation token of page `i`, and a page is truncated
  (`IsTruncated`) exactly when a further page follows in the list.
* Effectful functions return an `Except String` value (thrown `Error`s
  become `.error`), paired where needed with the network requests they
  issue.
-/

namespace CacheHttpClient

/-- One S3 listing entry as consumed by this module (interface `_content`):
both fields are optional in the SDK's types. -/
structure SContent where
  Key : Option String
  LastModified : Option Nat
deriving DecidableEq, Repr

/-- One `ListObjectsV2` response page. `Contents = none` models a response
with no `Contents` field at all (JS `!response.Contents`); note that
`some []` is a *present but empty* `Contents` array, which JS treats as
truthy. Truncation is modelled positionally (see module docstring). -/
structure S3Page where
  Contents : Option (List SContent)
deriving DecidableEq, Repr

/-- The cache entry returned to callers (contract `ArtifactCacheEntry`,
fields this module reads or writes; all optional in the contract). -/
structure ArtifactCacheEntry where
  cacheKey : Option String
  creationTime : Option Nat
  archiveLocation : Option String
deriving DecidableEq, Repr

/-- A typed HTTP response as seen by this module (statusCode and parsed
body). -/
structure TypedResp (α : Type) where
  statusCode : Nat
  result : Option α
deriving DecidableEq, Repr

/-- Contract `ReserveCacheResponse`. -/
structure ReserveCacheResponse where
  cacheId : Option Nat
deriving DecidableEq, Repr

/-- JS string truthiness of an optional string: `undefined` and `""` are
falsy. -/
def isTruthyStr : Option String → Bool
  | none => false
  | some s => s ≠ ""

/-- Modelled from the spec: `isSuccessStatusCode` lives in
`requestUtils.ts`, which is not part of the given sources; per the spec
(§4.5 "any other non-2xx is fatal") success is a 2xx status. -/
def isSuccessStatusCode (s : Nat) : Bool :=
  decide (200 ≤ s) && decide (s ≤ 299)

/-- Modelled from the spec: `getCacheVersion` lives in `cacheUtils.ts`,
which is not part of the given sources. The spec (§3) calls it "a derived
fingerprint string computed from (normalized path list, compression
method, cross-OS flag)"; the hash is modelled as a plain injective-enough
encoding of those inputs. -/
def getCacheVersion (paths : List String) (compressionMethod : Option String)
    (enableCrossOsArchive : Bool) : String :=
  String.intercalate "|" paths ++ "#" ++ compressionMethod.getD "" ++ "#" ++
    (if enableCrossOsArchive then "1" else "0")

/-- Modelled from the spec: JavaScript's `encodeURIComponent`; the escaping
itself is irrelevant to the claims, so it is modelled as the identity. -/
def encodeURIComponent (s : String) : String := s

/-- The Rest lookup resource string built by `getCacheEntry`:
`cache?keys=...&version=...`. -/
def lookupResource (keys : List String) (version : String) : String :=
  "cache?keys=" ++ encodeURIComponent (String.intercalate "," keys) ++
    "&version=" ++ version

/-! Section: S3 lookup — `getCacheEntryS3`, `searchRestoreKeyEntry`. -/

/-- The dummy archive location every S3-resolved entry carries. -/
def s3DummyLocation : String := "https://s3.amazonaws.com/"

/-- Models `entry.Key?.startsWith(k)`: `undefined` key is falsy. JS
`String.prototype.startsWith` is "the characters of `k` are a prefix of
the characters of the key", written over the character lists so that the
kernel can evaluate it. -/
def keyStartsWith (e : SContent) (k : String) : Bool :=
  match e.Key with
  | some s => k.data.isPrefixOf s.data
  | none => false

/-- The comparator passed to `matchPrefix.sort` in `_searchRestoreKeyEntry`,
branch for branch: entries lacking `LastModified` compare equal to
everything; otherwise later timestamps sort first (descending). -/
def jsCmp (i j : SContent) : Int :=
  match i.LastModified, j.LastModified with
  | none, _ => 0
  | _, none => 0
  | some ti, some tj =>
    if ti = tj then 0
    else if ti > tj then -1
    else if ti < tj then 1
    else 0

/-- Whether `i` may be placed before `j` under the comparator above. -/
def jsLe (i j : SContent) : Bool := decide (jsCmp i j ≤ 0)

/-- Stable insertion of one element into an already sorted list, keeping
it behind every element it may follow. Together with `jsSort` this models
the (stable) `Array.prototype.sort` of the runtime. -/
def sortInsert (a : SContent) : List SContent → List SContent
  | [] => [a]
  | b :: bs => if jsLe a b then a :: b :: bs else b :: sortInsert a bs

/-- Stable sort by the `jsCmp` comparator (models `matchPrefix.sort(...)`). -/
def jsSort : List SContent → List SContent
  | [] => []
  | x :: xs => sortInsert x (jsSort xs)

/-- The entry loop of `_searchRestoreKeyEntry`: scan the entries in order;
the first entry whose key equals the restore key exactly short-circuits
(`.inl`), otherwise the prefix matches are collected in order (`.inr`). -/
def scanEntries (k : String) : List SContent → SContent ⊕ List SContent
  | [] => .inr []
  | e :: es =>
    if e.Key = some k then .inl e
    else if keyStartsWith e k then
      match scanEntries k es with
      | .inl x => .inl x
      | .inr l => .inr (e :: l)
    else scanEntries k es

/-- Models `_searchRestoreKeyEntry`: exact match wins; otherwise the prefix
matches are sorted newest-first and the first element is returned;
no prefix match at all means `null`. -/
def searchRestoreKeyEntryOne (k : String) (entries : List SContent) :
    Option SContent :=
  match scanEntries k entries with
  | .inl e => some e
  | .inr matchPrefix =>
    if matchPrefix.length = 0 then none
    else (jsSort matchPrefix).head?

/-- Models `searchRestoreKeyEntry`: try each restore key in caller order, return
the first key's result that is non-null. -/
def searchRestoreKeyEntry : List String → List SContent → Option SContent
  | [], _ => none
  | k :: ks, entries =>
    match searchRestoreKeyEntryOne k entries with
    | some e => some e
    | none => searchRestoreKeyEntry ks entries

/-- The per-page primary probe of `getCacheEntryS3`:
`response.Contents.find(c => c.Key === primaryKey)` followed by the
`found && found.LastModified` guard. Yields the timestamp of the first
entry whose key equals the primary key, provided that entry has one;
a first match without `LastModified` yields `none` (no early return). -/
def pagePrimaryHit (primaryKey : Option String) (l : List SContent) :
    Option Nat :=
  match l.find? (fun c => c.Key == primaryKey) with
  | some c => c.LastModified
  | none => none

/-- The fallback section at the end of `getCacheEntryS3`: a found entry is
returned only when it carries a `LastModified`; otherwise `null`. -/
def fallbackResult (restoreKeys : List String) (contents : List SContent) :
    Option ArtifactCacheEntry :=
  match searchRestoreKeyEntry restoreKeys contents with
  | some e =>
    match e.LastModified with
    | some t => some ⟨e.Key, some t, some s3DummyLocation⟩
    | none => none
  | none => none

/-- The `for (;;)` listing loop of `getCacheEntryS3`: follow continuation
tokens page by page, accumulating `contents`. Returns either the primary
entry (early return), or the accumulated contents for the fallback search,
or the thrown error; the second component counts the `ListObjectsV2`
requests issued. A page without `Contents` ends the loop (error if nothing
was accumulated yet). -/
def listObjectsLoop (primaryKey : Option String) (bucket : String) :
    List S3Page → List SContent →
    Except String (ArtifactCacheEntry ⊕ List SContent) × Nat
  | [], acc => (.ok (.inr acc), 0)
  | p :: rest, acc =>
    match p.Contents with
    | none =>
      if acc.length ≠ 0 then (.ok (.inr acc), 1)
      else (.error ("Cannot found object in bucket " ++ bucket), 1)
    | some l =>
      match pagePrimaryHit primaryKey l with
      | some t => (.ok (.inl ⟨primaryKey, some t, some s3DummyLocation⟩), 1)
      | none =>
        let r := listObjectsLoop primaryKey bucket rest
          (acc ++ l.map (fun o => ⟨o.Key, o.LastModified⟩))
        (r.1, r.2 + 1)

/-- Models `getCacheEntryS3 (s3Options, s3BucketName, keys, paths)`: the
`S3ClientConfig` only constructs the client and is elided. Note the
source never reads `paths` on this code path. The second component is
the number of `ListObjectsV2` requests issued. -/
def getCacheEntryS3 (s3BucketName : String) (keys : List String)
    (paths : List String) (pages : List S3Page) :
    Except String (Option ArtifactCacheEntry) × Nat :=
  let primaryKey := keys.head?
  let r := listObjectsLoop primaryKey s3BucketName pages []
  match r.1 with
  | .error e => (.error e, r.2)
  | .ok (.inl entry) => (.ok (some entry), r.2)
  | .ok (.inr contents) => (.ok (fallbackResult (keys.drop 1) contents), r.2)

/-- All entries a full drain of the listing accumulates. -/
def pagesContents : List S3Page → List SContent
  | [] => []
  | p :: rest => p.Contents.getD [] ++ pagesContents rest

/-! Section: Rest lookup — `getCacheEntry`. -/

/-- The Rest branch of `getCacheEntry` after the response of the (retried)
`getJson` call is in hand: `204` means no match; any other non-2xx status
throws; a missing or empty `archiveLocation` on success throws
`Cache not found.`; otherwise the body is returned. The debug-only
diagnostics listing on a 204 is observability and is elided. -/
def restGetCacheEntry (response : TypedResp ArtifactCacheEntry) :
    Except String (Option ArtifactCacheEntry) :=
  if response.statusCode = 204 then .ok none
  else if ¬ isSuccessStatusCode response.statusCode then
    .error ("Cache service responded with " ++ toString response.statusCode)
  else
    let cacheDownloadUrl := response.result.bind (fun r => r.archiveLocation)
    if cacheDownloadUrl = none ∨ cacheDownloadUrl = some "" then
      .error "Cache not found."
    else .ok response.result

/-- Models `getCacheEntry`: dispatch to the S3 path when both `s3Options` and
`s3BucketName` are (truthily) supplied, else the Rest path. The Rest
server's answer is the `response` argument. -/
def getCacheEntry (keys paths : List String)
    (s3Options : Option Unit) (s3BucketName : Option String)
    (pages : List S3Page) (response : TypedResp ArtifactCacheEntry) :
    Except String (Option ArtifactCacheEntry) :=
  if s3Options.isSome && isTruthyStr s3BucketName then
    (getCacheEntryS3 (s3BucketName.getD "") keys paths pages).1
  else restGetCacheEntry response

/-! Section: network-call structure (which wrapper guards each outbound call). -/

/-- The wrapper a call site runs under: one of the two retry combinators of
`requestUtils`, or none at all. -/
inductive RetryWrapper
  | retryTyped
  | retryHttp
  | bare
deriving DecidableEq, Repr

/-- One outbound network call, with the wrapper its call site uses. -/
structure NetCall where
  op : String
  wrapper : RetryWrapper
deriving DecidableEq, Repr

/-- Call table of the `getCacheEntry` Rest path: one `getJson`, inside
`retryTypedResponse`. -/
def getCacheEntryRestNetCalls : List NetCall :=
  [⟨"getCacheEntry getJson", .retryTyped⟩]

/-- Call table of `printCachesListForDiagnostics`: one `getJson`, inside
`retryTypedResponse`. -/
def printCachesListNetCalls : List NetCall :=
  [⟨"listCache getJson", .retryTyped⟩]

/-- Call table of `uploadChunk`: one `sendStream PATCH`, inside
`retryHttpClientResponse`. -/
def uploadChunkNetCalls : List NetCall :=
  [⟨"uploadChunk sendStream PATCH", .retryHttp⟩]

/-- Call table of `commitCache`: one `postJson`, inside
`retryTypedResponse`. -/
def commitCacheNetCalls : List NetCall :=
  [⟨"commitCache postJson", .retryTyped⟩]

/-- Call table of the `reserveCache` Rest path: one `postJson`, inside
`retryTypedResponse`. -/
def reserveCacheRestNetCalls : List NetCall :=
  [⟨"reserveCache postJson", .retryTyped⟩]

/-- Call table of `getCacheEntryS3`: one
`s3client.send(new ListObjectsV2Command(...))`
per page consumed. The call site wraps the send in a bare
`try`/`catch` that rethrows — neither retry combinator is applied. -/
def getCacheEntryS3NetCalls (s3BucketName : String) (keys : List String)
    (pages : List S3Page) : List NetCall :=
  List.replicate (listObjectsLoop keys.head? s3BucketName pages []).2
    ⟨"ListObjectsV2 send", .bare⟩

/-- Call table of `uploadFileS3`: one SDK multipart `Upload(...).done()`,
in a bare
`try`/`catch`. -/
def uploadFileS3NetCalls : List NetCall :=
  [⟨"S3 multipart Upload done", .bare⟩]

/-! Section: `reserveCache`. -/

/-- Models `reserveCache`: with a (truthy) S3 configuration it synthesizes
`{statusCode: 200, result: null}` locally; else it POSTs the reservation
(the server's answer is the `response` argument). The second component
lists the network calls issued. -/
def reserveCache (key : String) (paths : List String)
    (s3Options : Option Unit) (s3BucketName : Option String)
    (response : TypedResp ReserveCacheResponse) :
    TypedResp ReserveCacheResponse × List NetCall :=
  if s3Options.isSome && isTruthyStr s3BucketName then
    (⟨200, none⟩, [])
  else (response, reserveCacheRestNetCalls)

/-! Section: chunk planning and `saveCache`. -/

/-- The chunk-claiming loop body of `uploadFile`'s Rest path: starting from
`offset`, each iteration claims `[offset, min (offset + maxChunkSize)
fileSize - 1]` and advances `offset` by `maxChunkSize`. The shared-cursor
claim order is deterministic and independent of which worker claims a
range, because the read-modify-write of `offset` is synchronous. The
source loop does not terminate when `maxChunkSize = 0`; the guard below
restricts the definition to the terminating domain. -/
def planChunksGo (fileSize maxChunkSize offset : Nat) : List (Nat × Nat) :=
  if h : offset < fileSize ∧ 0 < maxChunkSize then
    (offset, min (offset + maxChunkSize) fileSize - 1) ::
      planChunksGo fileSize maxChunkSize (offset + maxChunkSize)
  else []
termination_by fileSize - offset
decreasing_by
  exact Nat.sub_lt_sub_left h.1 (Nat.lt_add_of_pos_right h.2)

/-- All ranges claimed by the Rest upload loop, in claim order. -/
def planChunks (fileSize maxChunkSize : Nat) : List (Nat × Nat) :=
  planChunksGo fileSize maxChunkSize 0

/-- The ranges `uploadFile`'s Rest path submits to `uploadChunk`: none at
all when `concurrency = 0` (no worker runs the loop), else the planned
partition. -/
def restUploadRanges (fileSize maxChunkSize concurrency : Nat) :
    List (Nat × Nat) :=
  if concurrency = 0 then [] else planChunks fileSize maxChunkSize

/-- Observable steps of a `saveCache` run. -/
inductive SaveEvent
  | azureUpload
  | s3Upload (key : String)
  | chunkPatch (start stop : Nat) (ok : Bool)
  | commit (size : Nat)
deriving DecidableEq, Repr

/-- Models `uploadFile`: the S3 path delegates the whole file to the SDK multipart
upload; Rest path claims ranges off the shared cursor and PATCHes each
chunk (`chunkOk start end` tells whether that chunk upload succeeds;
workers do not stop claiming on a sibling's failure, and the aggregate
fails iff some chunk fails). -/
def uploadFile (fileSize maxChunkSize concurrency : Nat)
    (chunkOk : Nat → Nat → Bool) (s3options : Option Unit)
    (s3BucketName : Option String) (s3ok : Bool) (key : String) :
    List SaveEvent × Except String Unit :=
  if s3options.isSome && isTruthyStr s3BucketName then
    ([.s3Upload key],
      if s3ok then .ok () else .error "Cache upload failed")
  else
    let rs := restUploadRanges fileSize maxChunkSize concurrency
    (rs.map (fun r => .chunkPatch r.1 r.2 (chunkOk r.1 r.2)),
      if rs.all (fun r => chunkOk r.1 r.2) then .ok ()
      else .error "Cache service responded with an error during upload chunk.")

/-- Models `saveCache`: Azure SDK path (requires a signed URL, no commit);
otherwise upload via `uploadFile`, then — only when `s3Options` is not
supplied — POST the commit with the archive size and require a 2xx
status. `fileSize` stands for `getArchiveFileSizeInBytes(archivePath)`.
The first component is the ordered list of observable steps. -/
def saveCache (fileSize maxChunkSize concurrency : Nat)
    (chunkOk : Nat → Nat → Bool) (useAzureSdk : Bool)
    (signedUploadURL : Option String) (s3Options : Option Unit)
    (s3BucketName : Option String) (s3ok azureOk : Bool)
    (commitStatus : Nat) (key : String) :
    List SaveEvent × Except String Unit :=
  if useAzureSdk then
    if ¬ isTruthyStr signedUploadURL then
      ([], .error "Azure Storage SDK can only be used when a signed URL is provided.")
    else
      ([.azureUpload], if azureOk then .ok () else .error "Upload failed.")
  else
    let up := uploadFile fileSize maxChunkSize concurrency chunkOk
      s3Options s3BucketName s3ok key
    match up.2 with
    | .error e => (up.1, .error e)
    | .ok _ =>
      if s3Options.isNone then
        (up.1 ++ [.commit fileSize],
          if isSuccessStatusCode commitStatus then .ok ()
          else .error ("Cache service responded with " ++
            toString commitStatus ++ " during commit cache."))
      else (up.1, .ok ())

/-- Executable contiguity check over a range list: each range starts one
past the previous range's end. -/
def contiguousB : List (Nat × Nat) → Bool
  | [] => true
  | [_] => true
  | a :: b :: rest => (b.1 == a.2 + 1) && contiguousB (b :: rest)

end CacheHttpClient

namespace CacheHttpClient

theorem planChunksGo_pos {f c o : Nat} (h1 : o < f) (h2 : 0 < c) :
    planChunksGo f c o =
      (o, min (o + c) f - 1) :: planChunksGo f c (o + c) := by
  rw [planChunksGo, dif_pos ⟨h1, h2⟩]

theorem planChunksGo_stop {f c o : Nat} (h : ¬ (o < f ∧ 0 < c)) :
    planChunksGo f c o = [] := by
  rw [planChunksGo, dif_neg h]

theorem planChunksGo_bounds {f c : Nat} (o : Nat) :
    ∀ r ∈ planChunksGo f c o, o ≤ r.1 ∧ r.1 ≤ r.2 ∧ r.2 < f := by
  induction o using planChunksGo.induct f c with
  | case1 o h ih =>
    rw [planChunksGo_pos h.1 h.2]
    intro r hr
    rcases List.mem_cons.mp hr with h' | h'
    · subst h'
      have hmin1 : o + 1 ≤ min (o + c) f := le_min (by omega) h.1
      have hmin2 : min (o + c) f ≤ f := Nat.min_le_right _ _
      exact ⟨Nat.le_refl o, by simp; omega, by simp; omega⟩
    · have := ih r h'
      exact ⟨by omega, this.2.1, this.2.2⟩
  | case2 o h =>
    rw [planChunksGo_stop h]
    intro r hr
    exact absurd hr (List.not_mem_nil r)

theorem planChunksGo_sum {f c : Nat} (hc : 0 < c) (o : Nat) :
    ((planChunksGo f c o).map (fun r => r.2 - r.1 + 1)).sum = f - o := by
  induction o using planChunksGo.induct f c with
  | case1 o h ih =>
    rw [planChunksGo_pos h.1 h.2]
    simp only [List.map_cons, List.sum_cons, ih]
    have h2 : o + 1 ≤ min (o + c) f := le_min (by omega) h.1
    have h3 : min (o + c) f ≤ o + c := Nat.min_le_left _ _
    have h4 : min (o + c) f ≤ f := Nat.min_le_right _ _
    rcases Nat.le_total (o + c) f with hle | hle
    · rw [Nat.min_eq_left hle]; omega
    · rw [Nat.min_eq_right hle]; omega
  | case2 o h =>
    rw [planChunksGo_stop h]
    have : ¬ o < f := fun h' => h ⟨h', hc⟩
    simp; omega

theorem planChunksGo_contiguous {f c : Nat} (o : Nat) :
    contiguousB (planChunksGo f c o) = true := by
  induction o using planChunksGo.induct f c with
  | case1 o h ih =>
    rw [planChunksGo_pos h.1 h.2]
    by_cases h2 : o + c < f
    · rw [planChunksGo_pos h2 h.2] at ih ⊢
      have hmin : min (o + c) f = o + c := Nat.min_eq_left (Nat.le_of_lt h2)
      simp only [contiguousB, hmin] at ih ⊢
      simp at ih ⊢
      exact ⟨by omega, ih⟩
    · rw [planChunksGo_stop (fun hc => h2 hc.1)]
      simp [contiguousB]
  | case2 o h =>
    rw [planChunksGo_stop h]
    simp [contiguousB]

theorem planChunksGo_last {f c : Nat} (o : Nat) (h1 : o < f) (h2 : 0 < c) :
    (planChunksGo f c o).getLast?.map Prod.snd = some (f - 1) := by
  induction o using planChunksGo.induct f c with
  | case1 o h ih =>
    by_cases hrest : o + c < f
    · rw [planChunksGo_pos h.1 h.2, planChunksGo_pos hrest h.2,
        List.getLast?_cons_cons, ← planChunksGo_pos hrest h.2]
      exact ih hrest
    · rw [planChunksGo_pos h.1 h.2, planChunksGo_stop (fun hc => hrest hc.1)]
      have : min (o + c) f = f := Nat.min_eq_right (by omega)
      simp [this]
  | case2 o h =>
    exact absurd ⟨h1, h2⟩ h

theorem planChunksGo_count {f c : Nat} (hc : 0 < c) (o b : Nat) (hob : o ≤ b)
    (hbf : b < f) :
    (planChunksGo f c o).countP (fun r => decide (r.1 ≤ b ∧ b ≤ r.2)) = 1 := by
  induction o using planChunksGo.induct f c with
  | case1 o h ih =>
    rw [planChunksGo_pos h.1 h.2, List.countP_cons]
    by_cases hb : b ≤ min (o + c) f - 1
    · have hlt : b < o + c := by
        have h2 : o + 1 ≤ min (o + c) f := le_min (by omega) h.1
        have h3 : min (o + c) f ≤ o + c := Nat.min_le_left _ _
        omega
      have htail : (planChunksGo f c (o + c)).countP
          (fun r => decide (r.1 ≤ b ∧ b ≤ r.2)) = 0 := by
        rw [List.countP_eq_zero]
        intro r hr
        have := planChunksGo_bounds (o + c) r hr
        simp only [decide_eq_true_eq]
        omega
      rw [htail]
      simp only [decide_eq_true_eq]
      rw [if_pos ⟨hob, hb⟩]
    · have hge : o + c ≤ b := by
        rcases Nat.le_total (o + c) f with hle | hle
        · rw [Nat.min_eq_left hle] at hb; omega
        · rw [Nat.min_eq_right hle] at hb; omega
      have hhead : ¬ ((o, min (o + c) f - 1).1 ≤ b ∧ b ≤ (o, min (o + c) f - 1).2) := by
        simp only
        have h3 : min (o + c) f ≤ o + c := Nat.min_le_left _ _
        omega
      simp only [decide_eq_true_eq]
      rw [if_neg hhead, ih hge]
  | case2 o h =>
    exact absurd ⟨by omega, hc⟩ h
  
end CacheHttpClient

namespace CacheHttpClient

/-- Claim C6: for every `fileSize > 0`, `maxChunkSize ≥ 1` and
`concurrency ≥ 1`, the ranges submitted by `uploadFile`'s Rest path
partition `[0, fileSize)` exactly: they start at 0, are contiguous,
ascending and non-overlapping, the final range ends at `fileSize - 1`,
every byte offset below `fileSize` lies in exactly one range, and the
range sizes sum to `fileSize`. -/
theorem uploadFile_rest_ranges_partition
    (fileSize maxChunkSize concurrency : Nat)
    (hf : 0 < fileSize) (hc : 1 ≤ maxChunkSize) (hw : 1 ≤ concurrency) :
    (restUploadRanges fileSize maxChunkSize concurrency).head? =
      some (0, min maxChunkSize fileSize - 1) ∧
    contiguousB (restUploadRanges fileSize maxChunkSize concurrency) = true ∧
    (restUploadRanges fileSize maxChunkSize concurrency).getLast?.map Prod.snd =
      some (fileSize - 1) ∧
    (∀ r ∈ restUploadRanges fileSize maxChunkSize concurrency,
      r.1 ≤ r.2 ∧ r.2 < fileSize) ∧
    (∀ b, b < fileSize →
      (restUploadRanges fileSize maxChunkSize concurrency).countP
        (fun r => decide (r.1 ≤ b ∧ b ≤ r.2)) = 1) ∧
    ((restUploadRanges fileSize maxChunkSize concurrency).map
      (fun r => r.2 - r.1 + 1)).sum = fileSize := by
  have hcz : concurrency ≠ 0 := by omega
  unfold restUploadRanges planChunks
  rw [if_neg hcz]
  refine ⟨?_, planChunksGo_contiguous 0, planChunksGo_last 0 hf hc, ?_, ?_, ?_⟩
  · rw [planChunksGo_pos hf hc]
    simp
  · intro r hr
    have := planChunksGo_bounds 0 r hr
    exact ⟨this.2.1, this.2.2⟩
  · intro b hb
    exact planChunksGo_count hc 0 b (Nat.zero_le b) hb
  · rw [planChunksGo_sum hc 0]
    omega

/-- Witness for `uploadFile_rest_ranges_partition` at
`fileSize = 5`, `maxChunkSize = 2`, `concurrency = 3`. -/
theorem uploadFile_rest_ranges_partition_witness :
    (restUploadRanges 5 2 3).head? = some (0, min 2 5 - 1) ∧
    contiguousB (restUploadRanges 5 2 3) = true ∧
    (restUploadRanges 5 2 3).getLast?.map Prod.snd = some (5 - 1) ∧
    (∀ r ∈ restUploadRanges 5 2 3, r.1 ≤ r.2 ∧ r.2 < 5) ∧
    (∀ b, b < 5 →
      (restUploadRanges 5 2 3).countP
        (fun r => decide (r.1 ≤ b ∧ b ≤ r.2)) = 1) ∧
    ((restUploadRanges 5 2 3).map (fun r => r.2 - r.1 + 1)).sum = 5 :=
  uploadFile_rest_ranges_partition 5 2 3 (by decide) (by decide) (by decide)

end CacheHttpClient

namespace CacheHttpClient

theorem contentCopy_eq (l : List SContent) :
    l.map (fun o => (⟨o.Key, o.LastModified⟩ : SContent)) = l := by
  simp

theorem listObjectsLoop_hit {pk : Option String} {b : String}
    {l : List SContent} {t : Nat} (p : S3Page) (rest : List S3Page)
    (acc : List SContent) (hC : p.Contents = some l)
    (hHit : pagePrimaryHit pk l = some t) :
    listObjectsLoop pk b (p :: rest) acc =
      (.ok (.inl ⟨pk, some t, some s3DummyLocation⟩), 1) := by
  obtain ⟨pc⟩ := p
  cases hC
  simp only [listObjectsLoop, hHit]

theorem listObjectsLoop_skip {pk : Option String} {b : String}
    {l : List SContent} (p : S3Page) (rest : List S3Page)
    (acc : List SContent) (hC : p.Contents = some l)
    (hHit : pagePrimaryHit pk l = none) :
    listObjectsLoop pk b (p :: rest) acc =
      ((listObjectsLoop pk b rest (acc ++ l)).1,
       (listObjectsLoop pk b rest (acc ++ l)).2 + 1) := by
  obtain ⟨pc⟩ := p
  cases hC
  simp only [listObjectsLoop, hHit, contentCopy_eq]

theorem listObjectsLoop_drain {pk : Option String} {b : String}
    (pages : List S3Page)
    (hSome : ∀ p ∈ pages, p.Contents.isSome)
    (hNoHit : ∀ p ∈ pages, ∀ l, p.Contents = some l → pagePrimaryHit pk l = none) :
    ∀ acc, listObjectsLoop pk b pages acc =
      (.ok (.inr (acc ++ pagesContents pages)), pages.length) := by
  induction pages with
  | nil => intro acc; simp [listObjectsLoop, pagesContents]
  | cons p rest ih =>
    intro acc
    have hps := hSome p (List.mem_cons_self p rest)
    rcases Option.isSome_iff_exists.mp hps with ⟨l, hl⟩
    rw [listObjectsLoop_skip p rest acc hl
      (hNoHit p (List.mem_cons_self p rest) l hl)]
    rw [ih (fun q hq => hSome q (List.mem_cons_of_mem p hq))
      (fun q hq => hNoHit q (List.mem_cons_of_mem p hq))]
    simp [pagesContents, hl]

theorem listObjectsLoop_pre {pk : Option String} {b : String}
    (pre : List S3Page) (p : S3Page) (post : List S3Page)
    (hpreSome : ∀ q ∈ pre, q.Contents.isSome)
    (hpreNoHit : ∀ q ∈ pre, ∀ l, q.Contents = some l →
      pagePrimaryHit pk l = none)
    {l : List SContent} {t : Nat} (hC : p.Contents = some l)
    (hHit : pagePrimaryHit pk l = some t) :
    ∀ acc, listObjectsLoop pk b (pre ++ p :: post) acc =
      (.ok (.inl ⟨pk, some t, some s3DummyLocation⟩), pre.length + 1) := by
  induction pre with
  | nil =>
    intro acc
    simpa using listObjectsLoop_hit p post acc hC hHit
  | cons q qs ih =>
    intro acc
    rcases Option.isSome_iff_exists.mp (hpreSome q (List.mem_cons_self q qs)) with ⟨ql, hql⟩
    rw [List.cons_append,
      listObjectsLoop_skip q (qs ++ p :: post) acc hql
        (hpreNoHit q (List.mem_cons_self q qs) ql hql),
      ih (fun r hr => hpreSome r (List.mem_cons_of_mem q hr))
        (fun r hr => hpreNoHit r (List.mem_cons_of_mem q hr))]
    simp [Nat.add_comm]

/-- Claim C1, amended: if some page's first primary-key object carries a
`LastModified` (an *effective* primary hit), every earlier page has a
`Contents` field and no earlier effective primary hit, then
`getCacheEntryS3` returns the primary entry built from that timestamp —
regardless of the timestamps of fallback-matching entries anywhere in
the listing — and exactly `pre.length + 1` pages are requested: the
pages after the hit (arbitrary here) are never fetched. -/
theorem getCacheEntryS3_primary_hit_stops (b k : String)
    (ks paths : List String) (pre : List S3Page) (p : S3Page)
    (post : List S3Page)
    (hpreSome : ∀ q ∈ pre, q.Contents.isSome)
    (hpreNoHit : ∀ q ∈ pre, ∀ l, q.Contents = some l →
      pagePrimaryHit (some k) l = none)
    {l : List SContent} {t : Nat} (hC : p.Contents = some l)
    (hHit : pagePrimaryHit (some k) l = some t) :
    getCacheEntryS3 b (k :: ks) paths (pre ++ p :: post) =
      (.ok (some ⟨some k, some t, some s3DummyLocation⟩), pre.length + 1) := by
  have h := listObjectsLoop_pre (b := b) pre p post hpreSome hpreNoHit hC hHit []
  simp only [getCacheEntryS3, List.head?_cons, h]

/-- Witness for `getCacheEntryS3_primary_hit_stops`: primary `"a"` found
on the second page; the third page (which would throw) is never fetched. -/
theorem getCacheEntryS3_primary_hit_stops_witness :
    getCacheEntryS3 "b" ["a"] []
        [⟨some [⟨some "z", some 9⟩]⟩, ⟨some [⟨some "a", some 5⟩]⟩, ⟨none⟩] =
      (.ok (some ⟨some "a", some 5, some s3DummyLocation⟩), 2) :=
  getCacheEntryS3_primary_hit_stops "b" "a" [] []
    [⟨some [⟨some "z", some 9⟩]⟩] ⟨some [⟨some "a", some 5⟩]⟩ [⟨none⟩]
    (by decide) (by decide) rfl rfl

/-- Claim C1, counterexample: the listing contains an object whose key
exactly equals `keys[0]`, yet — because that object lacks
`LastModified` — the lookup returns `null` instead of an entry for the
primary key. -/
theorem getCacheEntryS3_primary_without_timestamp_missed :
    (getCacheEntryS3 "b" ["a"] [] [⟨some [⟨some "a", none⟩]⟩]).1 =
      .ok none := by rfl

theorem searchRestoreKeyEntryOne_none (k : String) (entries : List SContent)
    (h : ∀ e ∈ entries, e.Key ≠ some k ∧ keyStartsWith e k = false) :
    searchRestoreKeyEntryOne k entries = none := by
  have hscan : scanEntries k entries = .inr [] := by
    induction entries with
    | nil => rfl
    | cons e es ih =>
      have he := h e (List.mem_cons_self e es)
      simp only [scanEntries, if_neg he.1]
      rw [if_neg (by simp [he.2])]
      exact ih (fun x hx => h x (List.mem_cons_of_mem e hx))
  simp [searchRestoreKeyEntryOne, hscan]

theorem searchRestoreKeyEntry_none (ks : List String) (entries : List SContent)
    (h : ∀ f ∈ ks, ∀ e ∈ entries, e.Key ≠ some f ∧ keyStartsWith e f = false) :
    searchRestoreKeyEntry ks entries = none := by
  induction ks with
  | nil => rfl
  | cons f fs ih =>
    simp only [searchRestoreKeyEntry,
      searchRestoreKeyEntryOne_none f entries (h f (List.mem_cons_self f fs))]
    exact ih (fun g hg => h g (List.mem_cons_of_mem f hg))

theorem getCacheEntryS3_drained (b k : String) (ks paths : List String)
    (pages : List S3Page)
    (hSome : ∀ p ∈ pages, p.Contents.isSome)
    (hNoHit : ∀ p ∈ pages, ∀ l, p.Contents = some l →
      pagePrimaryHit (some k) l = none) :
    getCacheEntryS3 b (k :: ks) paths pages =
      (.ok (fallbackResult ks (pagesContents pages)), pages.length) := by
  have h := @listObjectsLoop_drain (some k) b pages hSome hNoHit []
  simp only [getCacheEntryS3, List.head?_cons, h, List.nil_append]
  rfl

/-- Claim C5, amended: when every listing page carries a `Contents` field,
no listed entry's key equals the primary key, and no listed entry matches
any fallback key exactly or by prefix, the S3 lookup returns `null`
without error. (The claim's "empty listing" case instead throws, see the
counterexample.) -/
theorem getCacheEntryS3_no_match_returns_null (b k : String)
    (ks paths : List String) (pages : List S3Page)
    (hSome : ∀ p ∈ pages, p.Contents.isSome)
    (hNoPrimary : ∀ p ∈ pages, ∀ l, p.Contents = some l →
      ∀ e ∈ l, e.Key ≠ some k)
    (hNoFallback : ∀ f ∈ ks, ∀ e ∈ pagesContents pages,
      e.Key ≠ some f ∧ keyStartsWith e f = false) :
    (getCacheEntryS3 b (k :: ks) paths pages).1 = .ok none := by
  have hNoHit : ∀ p ∈ pages, ∀ l, p.Contents = some l →
      pagePrimaryHit (some k) l = none := by
    intro p hp l hl
    unfold pagePrimaryHit
    have : l.find? (fun c => c.Key == some k) = none := by
      rw [List.find?_eq_none]
      intro e he
      simpa using hNoPrimary p hp l hl e he
    rw [this]
  rw [getCacheEntryS3_drained b k ks paths pages hSome hNoHit]
  simp only [fallbackResult,
    searchRestoreKeyEntry_none ks (pagesContents pages) hNoFallback]

/-- Witness for `getCacheEntryS3_no_match_returns_null`. -/
theorem getCacheEntryS3_no_match_returns_null_witness :
    (getCacheEntryS3 "b" ["a", "p"] [] [⟨some [⟨some "zz", some 3⟩]⟩]).1 =
      .ok none :=
  getCacheEntryS3_no_match_returns_null "b" "a" ["p"] []
    [⟨some [⟨some "zz", some 3⟩]⟩] (by decide) (by decide) (by decide)

/-- Claim C5, counterexample: a bucket listing with no objects at all (its
single page has no `Contents`) makes the S3 lookup throw
`Cannot found object in bucket ...` instead of returning `null`. -/
theorem getCacheEntryS3_empty_bucket_throws :
    (getCacheEntryS3 "bucket" ["a"] [] [⟨none⟩]).1 =
      .error "Cannot found object in bucket bucket" := by rfl

/-- Claim C10: when no page produces an effective primary hit (in
particular when a listed object's key equals the primary key but lacks
`LastModified`), the lookup falls through to the fallback search over the
accumulated listing; and whenever the fallback search's chosen entry
lacks `LastModified`, the whole lookup returns `null`. -/
theorem getCacheEntryS3_requires_lastModified (b k : String)
    (ks paths : List String) (pages : List S3Page)
    (hSome : ∀ p ∈ pages, p.Contents.isSome)
    (hNoHit : ∀ p ∈ pages, ∀ l, p.Contents = some l →
      pagePrimaryHit (some k) l = none) :
    (getCacheEntryS3 b (k :: ks) paths pages).1 =
      .ok (fallbackResult ks (pagesContents pages)) ∧
    (∀ e, searchRestoreKeyEntry ks (pagesContents pages) = some e →
      e.LastModified = none →
      (getCacheEntryS3 b (k :: ks) paths pages).1 = .ok none) := by
  have h := getCacheEntryS3_drained b k ks paths pages hSome hNoHit
  constructor
  · rw [h]
  · intro e hse hnone
    rw [h]
    simp only [fallbackResult, hse, hnone]

/-- Witness for `getCacheEntryS3_requires_lastModified`: the object
`"a"` equals the primary key but has no `LastModified`; it is also the
best (exact) fallback match for restore key `"a"`, and the lookup
returns `null`. -/
theorem getCacheEntryS3_requires_lastModified_witness :
    (getCacheEntryS3 "b" ["a", "a"] [] [⟨some [⟨some "a", none⟩]⟩]).1 =
      .ok (fallbackResult ["a"] (pagesContents [⟨some [⟨some "a", none⟩]⟩])) ∧
    (getCacheEntryS3 "b" ["a", "a"] [] [⟨some [⟨some "a", none⟩]⟩]).1 =
      .ok none :=
  ⟨(getCacheEntryS3_requires_lastModified "b" "a" ["a"] []
      [⟨some [⟨some "a", none⟩]⟩] (by decide) (by decide)).1,
   (getCacheEntryS3_requires_lastModified "b" "a" ["a"] []
      [⟨some [⟨some "a", none⟩]⟩] (by decide) (by decide)).2
      ⟨some "a", none⟩ rfl rfl⟩

end CacheHttpClient

namespace CacheHttpClient

theorem mem_sortInsert (a y : SContent) (l : List SContent) :
    y ∈ sortInsert a l ↔ y = a ∨ y ∈ l := by
  induction l with
  | nil => simp [sortInsert]
  | cons b bs ih =>
    simp only [sortInsert]
    by_cases h : jsLe a b
    · simp [h]
    · simp [h, ih]
      tauto

theorem jsLe_of_some {a b : SContent} {ta tb : Nat}
    (ha : a.LastModified = some ta) (hb : b.LastModified = some tb) :
    jsLe a b = true ↔ tb ≤ ta := by
  simp only [jsLe, jsCmp, ha, hb, decide_eq_true_eq]
  split_ifs with h1 h2 h3 <;> constructor <;> intro h <;> omega

/-- Head of the stable sort is a latest-`LastModified` element, provided
every element carries a timestamp. -/
theorem jsSort_head_max (xs : List SContent)
    (hsome : ∀ x ∈ xs, x.LastModified.isSome) (hne : xs ≠ []) :
    ∃ m, (jsSort xs).head? = some m ∧ m ∈ xs ∧
      ∀ x ∈ xs, ∀ tx, x.LastModified = some tx →
        ∃ tm, m.LastModified = some tm ∧ tx ≤ tm := by
  induction xs with
  | nil => exact absurd rfl hne
  | cons a xs ih =>
    by_cases hxs : xs = []
    · subst hxs
      refine ⟨a, rfl, List.mem_cons_self a [], ?_⟩
      intro x hx tx htx
      rcases List.mem_singleton.mp hx with rfl
      exact ⟨tx, htx, Nat.le_refl tx⟩
    · rcases ih (fun x hx => hsome x (List.mem_cons_of_mem a hx)) hxs with
        ⟨m, hm, hmmem, hmax⟩
      rcases Option.isSome_iff_exists.mp (hsome a (List.mem_cons_self a xs)) with ⟨ta, hta⟩
      rcases Option.isSome_iff_exists.mp
        (hsome m (List.mem_cons_of_mem a hmmem)) with ⟨tm, htm⟩
      obtain ⟨tail, hsort⟩ : ∃ t, jsSort xs = m :: t := by
        rcases h' : jsSort xs with _ | ⟨x, t⟩
        · rw [h'] at hm; simp at hm
        · rw [h'] at hm
          simp only [List.head?_cons, Option.some.injEq] at hm
          exact ⟨t, by rw [hm]⟩
      simp only [jsSort, hsort, sortInsert]
      by_cases hle : jsLe a m
      · rw [if_pos hle]
        refine ⟨a, rfl, List.mem_cons_self a xs, ?_⟩
        intro x hx tx htx
        rcases List.mem_cons.mp hx with rfl | hx
        · rw [htx] at hta
          injection hta with h
          exact ⟨tx, by rw [htx, h], Nat.le_refl tx⟩
        · have hml := (jsLe_of_some hta htm).mp hle
          rcases hmax x hx tx htx with ⟨tm', htm', hle'⟩
          rw [htm] at htm'
          injection htm' with h
          exact ⟨ta, hta, by omega⟩
      · rw [if_neg hle]
        refine ⟨m, rfl, List.mem_cons_of_mem a hmmem, ?_⟩
        intro x hx tx htx
        rcases List.mem_cons.mp hx with rfl | hx
        · have hnot : ¬ tm ≤ ta := fun hc => hle ((jsLe_of_some hta htm).mpr hc)
          rw [htx] at hta
          injection hta with h
          exact ⟨tm, htm, by omega⟩
        · exact hmax x hx tx htx

end CacheHttpClient

namespace CacheHttpClient

theorem scanEntries_exact (k : String) (entries : List SContent) :
    ∀ e, entries.find? (fun c => c.Key == some k) = some e →
      scanEntries k entries = .inl e := by
  induction entries with
  | nil => intro e h; simp at h
  | cons a es ih =>
    intro e h
    by_cases ha : a.Key = some k
    · rw [List.find?_cons_of_pos _ (by simpa using ha)] at h
      injection h with h
      subst h
      simp [scanEntries, ha]
    · rw [List.find?_cons_of_neg _ (by simpa using ha)] at h
      have := ih e h
      simp only [scanEntries, if_neg ha]
      by_cases hp : keyStartsWith a k
      · rw [if_pos hp, this]
      · rw [if_neg hp, this]

theorem scanEntries_no_exact (k : String) (entries : List SContent)
    (h : ∀ e ∈ entries, e.Key ≠ some k) :
    scanEntries k entries = .inr (entries.filter (fun e => keyStartsWith e k)) := by
  induction entries with
  | nil => rfl
  | cons a es ih =>
    have ha := h a (List.mem_cons_self a es)
    have ihe := ih (fun x hx => h x (List.mem_cons_of_mem a hx))
    simp only [scanEntries, if_neg ha]
    by_cases hp : keyStartsWith a k
    · rw [if_pos hp, ihe, List.filter_cons_of_pos (by simpa using hp)]
    · rw [if_neg hp, ihe, List.filter_cons_of_neg (by simpa using hp)]

theorem searchRestoreKeyEntry_skip (pre rest : List String)
    (entries : List SContent)
    (hpre : ∀ k' ∈ pre, ∀ e ∈ entries,
      e.Key ≠ some k' ∧ keyStartsWith e k' = false) :
    searchRestoreKeyEntry (pre ++ rest) entries =
      searchRestoreKeyEntry rest entries := by
  induction pre with
  | nil => rfl
  | cons q qs ih =>
    rw [List.cons_append]
    simp only [searchRestoreKeyEntry,
      searchRestoreKeyEntryOne_none q entries (hpre q (List.mem_cons_self q qs))]
    exact ih (fun g hg => hpre g (List.mem_cons_of_mem q hg))

/-- Claim C2: fallback resolution over `keys[1:]`. With no entry matching
any earlier fallback key (exactly or by prefix), the result is decided
entirely by the first matching key `k` — independently of the later keys
`post`, which are never consulted: (a) if some listed entry's key equals
`k` exactly, the first such entry is returned, preferred over all prefix
matches; (b) otherwise, if `k` has prefix matches and they all carry
timestamps, the returned entry is a prefix match with the latest
`LastModified`. -/
theorem searchRestoreKeyEntry_resolution (pre : List String) (k : String)
    (post : List String) (entries : List SContent)
    (hpre : ∀ k' ∈ pre, ∀ e ∈ entries,
      e.Key ≠ some k' ∧ keyStartsWith e k' = false) :
    (∀ e, entries.find? (fun c => c.Key == some k) = some e →
      searchRestoreKeyEntry (pre ++ k :: post) entries = some e) ∧
    ((∀ e ∈ entries, e.Key ≠ some k) →
      entries.filter (fun e => keyStartsWith e k) ≠ [] →
      (∀ e ∈ entries, keyStartsWith e k = true → e.LastModified.isSome) →
      ∃ m, searchRestoreKeyEntry (pre ++ k :: post) entries = some m ∧
        m ∈ entries ∧ keyStartsWith m k = true ∧
        ∀ x ∈ entries, keyStartsWith x k = true →
          ∀ tx, x.LastModified = some tx →
            ∃ tm, m.LastModified = some tm ∧ tx ≤ tm) := by
  rw [searchRestoreKeyEntry_skip pre (k :: post) entries hpre]
  constructor
  · intro e he
    simp only [searchRestoreKeyEntry, searchRestoreKeyEntryOne,
      scanEntries_exact k entries e he]
  · intro hnoexact hfilter hsome
    have hscan := scanEntries_no_exact k entries hnoexact
    have hsome' : ∀ x ∈ entries.filter (fun e => keyStartsWith e k),
        x.LastModified.isSome := by
      intro x hx
      have := List.mem_filter.mp hx
      exact hsome x this.1 (by simpa using this.2)
    rcases jsSort_head_max _ hsome' hfilter with ⟨m, hm, hmmem, hmax⟩
    have hmf := List.mem_filter.mp hmmem
    refine ⟨m, ?_, hmf.1, by simpa using hmf.2, ?_⟩
    · simp only [searchRestoreKeyEntry, searchRestoreKeyEntryOne, hscan]
      rw [if_neg (by simpa using List.length_pos_iff_ne_nil.mpr hfilter |>.ne'), hm]
    · intro x hx hpx tx htx
      exact hmax x (List.mem_filter.mpr ⟨hx, by simpa using hpx⟩) tx htx

/-- Witness for `searchRestoreKeyEntry_resolution`: earlier fallback
`"q"` matches nothing; among the prefix matches of `"p"` the entry with
the latest timestamp (`"pb"`, time 7) is selected; `"z"` is never
consulted. -/
theorem searchRestoreKeyEntry_resolution_witness :
    ∃ m, searchRestoreKeyEntry (["q"] ++ "p" :: ["z"])
        [⟨some "pa", some 1⟩, ⟨some "pb", some 7⟩, ⟨some "pc", some 3⟩] = some m ∧
      m ∈ [⟨some "pa", some 1⟩, ⟨some "pb", some 7⟩, ⟨some "pc", some 3⟩] ∧
      keyStartsWith m "p" = true ∧
      ∀ x ∈ [(⟨some "pa", some 1⟩ : SContent), ⟨some "pb", some 7⟩, ⟨some "pc", some 3⟩],
        keyStartsWith x "p" = true → ∀ tx, x.LastModified = some tx →
          ∃ tm, m.LastModified = some tm ∧ tx ≤ tm :=
  (searchRestoreKeyEntry_resolution ["q"] "p" ["z"]
      [⟨some "pa", some 1⟩, ⟨some "pb", some 7⟩, ⟨some "pc", some 3⟩]
      (by decide)).2 (by decide) (by decide) (by decide)

end CacheHttpClient

namespace CacheHttpClient

theorem planChunks_one_one : planChunks 1 1 = [(0, 0)] := by
  rw [planChunks, planChunksGo_pos (by omega) (by omega),
    planChunksGo_stop (by omega)]
  norm_num

/-- Claim C3, counterexample: calling `saveCache` with `s3Options` supplied
but no `s3BucketName` makes `uploadFile` take the chunked Rest path (a
chunk PATCH is issued and succeeds), yet the commit POST is skipped
because the commit guard tests only `s3Options`. -/
theorem saveCache_mismatched_s3_config_skips_commit :
    (saveCache 1 1 1 (fun _ _ => true) false none (some ()) none true true
        200 "k").1 = [.chunkPatch 0 0 true] ∧
    SaveEvent.commit 1 ∉
      (saveCache 1 1 1 (fun _ _ => true) false none (some ()) none true true
        200 "k").1 := by
  have h : (saveCache 1 1 1 (fun _ _ => true) false none (some ()) none true
      true 200 "k").1 = [.chunkPatch 0 0 true] := by
    simp [saveCache, uploadFile, isTruthyStr, restUploadRanges,
      planChunks_one_one]
  exact ⟨h, by rw [h]; simp⟩

/-- Claim C3, amended: with the Azure path disabled, the commit POST is
issued exactly when `s3Options` is absent and every chunk of the Rest
upload succeeded; when it is issued it comes strictly after all chunk
uploads, which must all have succeeded; any chunk failure means commit is
never called; and when both S3 settings are supplied the upload is the
SDK multipart upload with no commit. (As stated the claim fails when
`s3Options` is supplied without `s3BucketName`: the Rest chunk path runs
but commit is skipped — see the counterexample.) -/
theorem saveCache_commit_policy (fileSize maxChunkSize concurrency : Nat)
    (chunkOk : Nat → Nat → Bool) (signedUploadURL : Option String)
    (s3Options : Option Unit) (s3BucketName : Option String)
    (s3ok : Bool) (commitStatus : Nat) (key : String) :
    (SaveEvent.commit fileSize ∈
        (saveCache fileSize maxChunkSize concurrency chunkOk false
          signedUploadURL s3Options s3BucketName s3ok true commitStatus key).1 ↔
      s3Options = none ∧
        (restUploadRanges fileSize maxChunkSize concurrency).all
          (fun r => chunkOk r.1 r.2) = true) ∧
    (s3Options = none →
      (restUploadRanges fileSize maxChunkSize concurrency).all
          (fun r => chunkOk r.1 r.2) = true →
      (saveCache fileSize maxChunkSize concurrency chunkOk false
          signedUploadURL s3Options s3BucketName s3ok true commitStatus key).1 =
        (restUploadRanges fileSize maxChunkSize concurrency).map
          (fun r => .chunkPatch r.1 r.2 (chunkOk r.1 r.2)) ++
          [.commit fileSize]) ∧
    ((restUploadRanges fileSize maxChunkSize concurrency).all
        (fun r => chunkOk r.1 r.2) = false →
      SaveEvent.commit fileSize ∉
        (saveCache fileSize maxChunkSize concurrency chunkOk false
          signedUploadURL s3Options s3BucketName s3ok true commitStatus key).1) ∧
    (s3Options = some () → isTruthyStr s3BucketName = true →
      (saveCache fileSize maxChunkSize concurrency chunkOk false
          signedUploadURL s3Options s3BucketName s3ok true commitStatus key).1 =
        [.s3Upload key]) := by
  have hnomem : ∀ (rs : List (Nat × Nat)),
      SaveEvent.commit fileSize ∉
        rs.map (fun r => SaveEvent.chunkPatch r.1 r.2 (chunkOk r.1 r.2)) := by
    intro rs hmem
    rcases List.mem_map.mp hmem with ⟨r, _, hr⟩
    cases hr
  cases s3Options with
  | none =>
    cases hall : (restUploadRanges fileSize maxChunkSize concurrency).all
        (fun r => chunkOk r.1 r.2) with
    | true =>
      have hev : (saveCache fileSize maxChunkSize concurrency chunkOk false
          signedUploadURL none s3BucketName s3ok true commitStatus key).1 =
          (restUploadRanges fileSize maxChunkSize concurrency).map
            (fun r => .chunkPatch r.1 r.2 (chunkOk r.1 r.2)) ++
            [.commit fileSize] := by
        by_cases hcs : isSuccessStatusCode commitStatus = true <;>
          simp [saveCache, uploadFile, hall, hcs]
      refine ⟨?_, fun _ _ => hev, fun hf => Bool.noConfusion hf,
        fun h => Option.noConfusion h⟩
      rw [hev]
      simp
    | false =>
      have hev : (saveCache fileSize maxChunkSize concurrency chunkOk false
          signedUploadURL none s3BucketName s3ok true commitStatus key).1 =
          (restUploadRanges fileSize maxChunkSize concurrency).map
            (fun r => .chunkPatch r.1 r.2 (chunkOk r.1 r.2)) := by
        simp [saveCache, uploadFile, hall]
      refine ⟨?_, fun _ habs => Bool.noConfusion habs,
        fun _ => by rw [hev]; exact hnomem _, fun h => Option.noConfusion h⟩
      rw [hev]
      exact Iff.intro (fun hm => absurd hm (hnomem _))
        (fun hc => Bool.noConfusion hc.2)
  | some u =>
    cases u
    by_cases hb : isTruthyStr s3BucketName = true
    · have hev : (saveCache fileSize maxChunkSize concurrency chunkOk false
          signedUploadURL (some ()) s3BucketName s3ok true commitStatus key).1 =
          [.s3Upload key] := by
        cases s3ok <;> simp [saveCache, uploadFile, hb]
      refine ⟨?_, fun h => Option.noConfusion h, fun _ => ?_, fun _ _ => hev⟩
      · rw [hev]
        exact Iff.intro
          (fun hm => SaveEvent.noConfusion (List.mem_singleton.mp hm))
          (fun hc => Option.noConfusion hc.1)
      · rw [hev]
        intro hm
        exact SaveEvent.noConfusion (List.mem_singleton.mp hm)
    · cases hall : (restUploadRanges fileSize maxChunkSize concurrency).all
          (fun r => chunkOk r.1 r.2) with
      | true =>
        have hev : (saveCache fileSize maxChunkSize concurrency chunkOk false
            signedUploadURL (some ()) s3BucketName s3ok true commitStatus key).1 =
            (restUploadRanges fileSize maxChunkSize concurrency).map
              (fun r => .chunkPatch r.1 r.2 (chunkOk r.1 r.2)) := by
          simp [saveCache, uploadFile, hb, hall]
        refine ⟨?_, fun h => Option.noConfusion h, fun hf => Bool.noConfusion hf,
          fun _ habs => absurd habs hb⟩
        rw [hev]
        exact Iff.intro (fun hm => absurd hm (hnomem _))
          (fun hc => Option.noConfusion hc.1)
      | false =>
        have hev : (saveCache fileSize maxChunkSize concurrency chunkOk false
            signedUploadURL (some ()) s3BucketName s3ok true commitStatus key).1 =
            (restUploadRanges fileSize maxChunkSize concurrency).map
              (fun r => .chunkPatch r.1 r.2 (chunkOk r.1 r.2)) := by
          simp [saveCache, uploadFile, hb, hall]
        refine ⟨?_, fun h => Option.noConfusion h,
          fun _ => by rw [hev]; exact hnomem _, fun _ habs => absurd habs hb⟩
        rw [hev]
        exact Iff.intro (fun hm => absurd hm (hnomem _))
          (fun hc => Option.noConfusion hc.1)

end CacheHttpClient

namespace CacheHttpClient

/-- Witness for `saveCache_commit_policy`: a 1-byte Rest upload whose
single chunk succeeds, followed by the commit POST. -/
theorem saveCache_commit_policy_witness :
    (saveCache 1 1 1 (fun _ _ => true) false none none none true true
        200 "k").1 =
      (restUploadRanges 1 1 1).map (fun r => .chunkPatch r.1 r.2 true) ++
        [.commit 1] :=
  (saveCache_commit_policy 1 1 1 (fun _ _ => true) none none none true
      200 "k").2.1 rfl (by simp [restUploadRanges, planChunks_one_one])

theorem string_append_right_inj {p v1 v2 : String} (h : p ++ v1 = p ++ v2) :
    v1 = v2 := by
  have h2 := congrArg String.data h
  simp only [String.data_append] at h2
  exact String.ext (List.append_cancel_left h2)

/-- Claim C4, counterexample: two S3 lookups with the same keys but
different path lists — hence different cache versions — both match the
same stored object: the ObjectStore lookup path ignores the version
entirely, so version is not part of the entry's identity there. -/
theorem getCacheEntryS3_ignores_version :
    getCacheVersion ["p1"] none false ≠ getCacheVersion ["p2"] none false ∧
    (getCacheEntryS3 "b" ["k"] ["p1"] [⟨some [⟨some "k", some 5⟩]⟩]).1 =
      .ok (some ⟨some "k", some 5, some s3DummyLocation⟩) ∧
    (getCacheEntryS3 "b" ["k"] ["p2"] [⟨some [⟨some "k", some 5⟩]⟩]).1 =
      .ok (some ⟨some "k", some 5, some s3DummyLocation⟩) :=
  ⟨by decide, rfl, rfl⟩

/-- Claim C4, amended: the version is part of the lookup identity for the
Rest backend — the lookup resource embeds it, so different versions
always query different resources — while the ObjectStore lookup path of
`getCacheEntry` does not depend on the path list (from which the version
is derived) at all. -/
theorem version_identity_rest_only (keys : List String) (v1 v2 : String)
    (h : v1 ≠ v2) :
    lookupResource keys v1 ≠ lookupResource keys v2 ∧
    ∀ b ks paths1 paths2 pages,
      getCacheEntryS3 b ks paths1 pages = getCacheEntryS3 b ks paths2 pages := by
  constructor
  · intro heq
    exact h (string_append_right_inj heq)
  · intro b ks paths1 paths2 pages
    rfl

/-- Witness for `version_identity_rest_only`. -/
theorem version_identity_rest_only_witness :
    lookupResource ["k"] "v1" ≠ lookupResource ["k"] "v2" ∧
    ∀ b ks paths1 paths2 pages,
      getCacheEntryS3 b ks paths1 pages = getCacheEntryS3 b ks paths2 pages :=
  version_identity_rest_only ["k"] "v1" "v2" (by decide)

/-- Claim C7: the Rest-backend lookup contract of `getCacheEntry` (with no
S3 configuration): a 204 yields `null` with no error; any other
non-2xx status throws; a 2xx whose body has a missing or empty
`archiveLocation` throws `Cache not found.`; and every entry returned
carries a non-empty `archiveLocation`. -/
theorem getCacheEntry_rest_contract (keys paths : List String)
    (s3BucketName : Option String) (pages : List S3Page)
    (response : TypedResp ArtifactCacheEntry) :
    (response.statusCode = 204 →
      getCacheEntry keys paths none s3BucketName pages response = .ok none) ∧
    (response.statusCode ≠ 204 →
      isSuccessStatusCode response.statusCode = false →
      getCacheEntry keys paths none s3BucketName pages response =
        .error ("Cache service responded with " ++ toString response.statusCode)) ∧
    (response.statusCode ≠ 204 →
      isSuccessStatusCode response.statusCode = true →
      (response.result.bind (fun r => r.archiveLocation) = none ∨
        response.result.bind (fun r => r.archiveLocation) = some "") →
      getCacheEntry keys paths none s3BucketName pages response =
        .error "Cache not found.") ∧
    (∀ e, getCacheEntry keys paths none s3BucketName pages response =
        .ok (some e) →
      ∃ u, e.archiveLocation = some u ∧ u ≠ "") := by
  have hrest : getCacheEntry keys paths none s3BucketName pages response =
      restGetCacheEntry response := by
    simp [getCacheEntry]
  rw [hrest]
  refine ⟨?_, ?_, ?_, ?_⟩
  · intro h204
    simp [restGetCacheEntry, h204]
  · intro h204 hfail
    simp [restGetCacheEntry, h204, hfail]
  · intro h204 hok hmiss
    simp only [restGetCacheEntry, if_neg h204, hok, Bool.not_true]
    rw [if_neg (by simp), if_pos hmiss]
  · intro e he
    by_cases h204 : response.statusCode = 204
    · simp [restGetCacheEntry, h204] at he
    · by_cases hok : isSuccessStatusCode response.statusCode = true
      · simp only [restGetCacheEntry, if_neg h204, hok, Bool.not_true] at he
        rw [if_neg (by simp)] at he
        by_cases hmiss : response.result.bind (fun r => r.archiveLocation) = none ∨
            response.result.bind (fun r => r.archiveLocation) = some ""
        · rw [if_pos hmiss] at he
          cases he
        · rw [if_neg hmiss] at he
          injection he with he
          push_neg at hmiss
          rcases hu : response.result.bind (fun r => r.archiveLocation) with _ | u
          · exact absurd hu hmiss.1
          · rcases Option.bind_eq_some.mp hu with ⟨r, hr, hloc⟩
            rw [he] at hr
            injection hr with hr
            subst hr
            refine ⟨u, hloc, ?_⟩
            intro hu0
            subst hu0
            exact absurd hu hmiss.2
      · simp only [restGetCacheEntry, if_neg h204] at he
        rw [if_pos (by simpa using hok)] at he
        cases he

/-- Witness for `getCacheEntry_rest_contract` at a 204 response. -/
theorem getCacheEntry_rest_contract_witness :
    getCacheEntry ["k"] [] none none [] ⟨204, none⟩ = .ok none :=
  (getCacheEntry_rest_contract ["k"] [] none [] ⟨204, none⟩).1 rfl

/-- Claim C8, counterexample: the ObjectStore paginated listing issues its
`ListObjectsV2` request outside any retry wrapper (its call site uses a
bare `try`/`catch`), refuting "no backend issues a network call outside
a retry boundary". -/
theorem s3_listing_outside_retry :
    getCacheEntryS3NetCalls "b" ["k"] [⟨some [⟨some "k", some 1⟩]⟩] =
      [⟨"ListObjectsV2 send", .bare⟩] ∧
    ¬ (∀ c ∈ getCacheEntryS3NetCalls "b" ["k"] [⟨some [⟨some "k", some 1⟩]⟩],
        c.wrapper ≠ .bare) := by
  have hcalls : getCacheEntryS3NetCalls "b" ["k"]
      [⟨some [⟨some "k", some 1⟩]⟩] = [⟨"ListObjectsV2 send", .bare⟩] := rfl
  constructor
  · exact hcalls
  · intro h
    exact h ⟨"ListObjectsV2 send", .bare⟩
      (hcalls ▸ List.mem_singleton.mpr rfl) rfl

/-- Claim C8, amended: every Rest-backend HTTP call in this module (lookup,
diagnostics listing, reserve, chunk upload, commit) runs inside a retry
wrapper, while the ObjectStore SDK calls (the paginated listing and the
multipart upload) run outside any retry boundary. -/
theorem rest_calls_wrapped_s3_calls_bare :
    (∀ c ∈ getCacheEntryRestNetCalls ++ printCachesListNetCalls ++
        reserveCacheRestNetCalls ++ uploadChunkNetCalls ++ commitCacheNetCalls,
      c.wrapper ≠ .bare) ∧
    (∀ b keys pages, ∀ c ∈ getCacheEntryS3NetCalls b keys pages,
      c.wrapper = .bare) ∧
    (∀ c ∈ uploadFileS3NetCalls, c.wrapper = .bare) := by
  refine ⟨by decide, ?_, by decide⟩
  intro b keys pages c hc
  rw [List.eq_of_mem_replicate hc]

/-- Witness for `rest_calls_wrapped_s3_calls_bare`. -/
theorem rest_calls_wrapped_s3_calls_bare_witness :
    (⟨"uploadChunk sendStream PATCH", .retryHttp⟩ : NetCall).wrapper ≠ .bare ∧
    (⟨"ListObjectsV2 send", .bare⟩ : NetCall).wrapper = .bare :=
  ⟨rest_calls_wrapped_s3_calls_bare.1 ⟨"uploadChunk sendStream PATCH", .retryHttp⟩
      (by decide),
   rest_calls_wrapped_s3_calls_bare.2.1 "b" ["k"] [⟨some [⟨some "k", some 1⟩]⟩]
      ⟨"ListObjectsV2 send", .bare⟩
      (List.mem_singleton.mpr rfl)⟩

/-- Claim C9: `reserveCache` with both S3 settings supplied reports
`statusCode 200` with a `null` result and issues no network request. -/
theorem reserveCache_s3_noop (key : String) (paths : List String)
    (s3BucketName : String) (hb : s3BucketName ≠ "")
    (response : TypedResp ReserveCacheResponse) :
    reserveCache key paths (some ()) (some s3BucketName) response =
      (⟨200, none⟩, []) := by
  simp [reserveCache, isTruthyStr, hb]

/-- Witness for `reserveCache_s3_noop`: even a server response carrying a
failure status and an id is ignored — no request is made. -/
theorem reserveCache_s3_noop_witness :
    reserveCache "k" [] (some ()) (some "bucket") ⟨500, some ⟨some 7⟩⟩ =
      (⟨200, none⟩, []) :=
  reserveCache_s3_noop "k" [] "bucket" (by decide) ⟨500, some ⟨some 7⟩⟩

end CacheHttpClient
